import Mathlib

/-!
Shallow embedding of the earnings-accrual / balance / withdrawal core of the
coinmineinvests server (src/server/routes.ts, src/server/storage.ts,
src/shared/schema.ts).

Conventions of the embedding:
* JavaScript numbers are modelled as rationals (Rat); timestamps as Int
  (milliseconds/seconds do not matter, only order and comparison do).
* Mongo documents are Lean structures; collections are lists inside one
  record St that plays the role of the database.
* User ids are Mongo ObjectId hex strings and are modelled as String;
  document ids of the other collections are abstracted as Nat, generated as
  the collection length at insertion time, which reproduces uniqueness.
* The accrual write stores userId: Number(userId) (routes.ts:832).  Number()
  of an ObjectId hex string is NaN, so the String-typed userId field of the
  stored row becomes "NaN"; this coercion is modelled explicitly by
  storedUserId below.
* Each Express handler becomes a function St -> ... -> St x Response; a
  thrown-and-caught error becomes an explicit branch.  The per-contract
  try/catch of generateDailyEarnings is modelled by a failure oracle
  (fail : Nat -> Bool) saying for which contract ids the ledger write
  throws; the catch swallows the error, leaving the state unchanged.
-/

namespace CoinMine

/-- Withdrawal status enum of schema.ts (withdrawalSchema). -/
inductive WStatus where
  | pending
  | processing
  | completed
  | rejected
deriving DecidableEq, Repr

/-- Transaction status enum of schema.ts (transactionSchema). -/
inductive TStatus where
  | pending
  | approved
  | rejected
deriving DecidableEq, Repr

/-- MiningPlan document (schema.ts, miningPlanSchema); only the fields the
claims touch are carried. -/
structure MiningPlan where
  id : Nat
  price : Rat
  dailyEarnings : Rat
  contractPeriod : Nat
  isActive : Bool
deriving DecidableEq, Repr

/-- MiningContract document (schema.ts, miningContractSchema). -/
structure MiningContract where
  id : Nat
  userId : String
  planId : Nat
  transactionId : Nat
  startDate : Int
  endDate : Int
  isActive : Bool
  totalEarnings : Rat
deriving DecidableEq, Repr

/-- MiningEarning document (schema.ts, miningEarningSchema): one ledger row. -/
structure MiningEarning where
  contractId : Nat
  userId : String
  date : Int
  amount : Rat
  usdValue : Rat
deriving DecidableEq, Repr

/-- Withdrawal document (schema.ts, withdrawalSchema). -/
structure Withdrawal where
  id : Nat
  userId : String
  currency : String
  amount : Rat
  walletAddress : String
  status : WStatus
  transactionHash : Option String
  networkFee : Option Rat
  processedAt : Option Int
deriving DecidableEq, Repr

/-- Transaction document (schema.ts, transactionSchema). -/
structure Transaction where
  id : Nat
  userId : String
  planId : Nat
  amount : Rat
  currency : String
  cryptoAmount : Rat
  walletAddress : String
  transactionHash : Option String
  status : TStatus
deriving DecidableEq, Repr

/-- CryptoPrice document (schema.ts, cryptoPriceSchema); symbol is unique. -/
structure CryptoPrice where
  symbol : String
  price : Rat
deriving DecidableEq, Repr

/-- The database state: one list per Mongo collection. -/
structure St where
  plans : List MiningPlan
  contracts : List MiningContract
  earnings : List MiningEarning
  withdrawals : List Withdrawal
  transactions : List Transaction
  prices : List CryptoPrice
deriving Repr

/-- storage.getMiningPlan: MiningPlan.findById. -/
def getMiningPlan (s : St) (pid : Nat) : Option MiningPlan :=
  s.plans.find? (fun p => decide (p.id = pid))

/-- storage.getCryptoPrice: CryptoPrice.findOne by symbol. -/
def getCryptoPrice (s : St) (symbol : String) : Option CryptoPrice :=
  s.prices.find? (fun p => decide (p.symbol = symbol))

/-- storage.getActiveMiningContracts (storage.ts:186-191):
MiningContract.find with isActive = true AND endDate gte now. -/
def getActiveMiningContracts (s : St) (now : Int) : List MiningContract :=
  s.contracts.filter (fun c => c.isActive && decide (now ≤ c.endDate))

/-- storage.getUserTotalEarnings (storage.ts:203-219): the Balance
Aggregator; the aggregate pipeline matches the user's MiningEarning rows
and sums amount and usdValue (0 when there are none).
Result is (totalBtc, totalUsd). -/
def getUserTotalEarnings (s : St) (uid : String) : Rat × Rat :=
  (((s.earnings.filter (fun e => decide (e.userId = uid))).map
      (fun e => e.amount)).sum,
   ((s.earnings.filter (fun e => decide (e.userId = uid))).map
      (fun e => e.usdValue)).sum)

/-- The JavaScript pattern Number(btcPrice?.price) || 111325 of
routes.ts:824: a missing price document, or a price of 0, falls back to the
hardcoded 111325 rate. -/
def priceOrDefault (p : Option Rat) : Rat :=
  match p with
  | none => 111325
  | some q => if q = 0 then 111325 else q

/-- JS Number() applied to a user-id string, as in userId: Number(userId)
at routes.ts:832.  A decimal numeral parses to its number; a Mongo ObjectId
hex string — the form every real user id has — is not a decimal numeral, so
Number() yields NaN (modelled as none).  Digit-only strings are exactly the
strings occurring as user ids on which Number() does not yield NaN. -/
def jsNumberOfId (userId : String) : Option Nat :=
  if userId.data ≠ [] ∧ userId.data.all (fun ch => ch.isDigit) then
    some (userId.data.foldl (fun n ch => n * 10 + (ch.toNat - '0'.toNat)) 0)
  else none

/-- What mongoose stores in the String-typed userId field of the
MiningEarning document after the Number() coercion of routes.ts:832: the
decimal rendering of the number, or "NaN" when the coercion failed.  For a
real ObjectId user id this is always "NaN", so tick-written rows are
attributed to no user and the Balance Aggregator never matches them. -/
def storedUserId (userId : String) : String :=
  match jsNumberOfId userId with
  | some n => toString n
  | none => "NaN"

/-- The MiningEarning row written by one run of generateDailyEarnings
(routes.ts:826-836): amount is plan.dailyEarnings / 86400 (the per-second
share of the daily rate), usdValue is amount times the BTC price with the
111325 fallback, and the stored userId is the Number() coercion of the
caller's user id. -/
def tickEntry (s : St) (now : Int) (userId : String) (plan : MiningPlan)
    (contractId : Nat) : MiningEarning :=
  let btcPriceUsd := priceOrDefault ((getCryptoPrice s "BTC").map (fun p => p.price))
  let perSecond := plan.dailyEarnings / 86400
  { contractId := contractId, userId := storedUserId userId, date := now,
    amount := perSecond, usdValue := perSecond * btcPriceUsd }

/-- generateDailyEarnings (routes.ts:821-840): unconditionally inserts one
MiningEarning row for the contract.  fail models the try/catch: when the
write for this contract id throws, the catch logs and leaves the state
unchanged. -/
def generateDailyEarnings (fail : Nat → Bool) (now : Int) (s : St)
    (userId : String) (plan : MiningPlan) (contractId : Nat) : St :=
  if fail contractId then s
  else { s with earnings := s.earnings ++ [tickEntry s now userId plan contractId] }

/-- One iteration of the loop of generateEarningsForAllContracts
(routes.ts:847-851): resolve the contract's plan, then credit it; a
contract whose plan is missing is skipped. -/
def tickStep (fail : Nat → Bool) (now : Int) (acc : St) (c : MiningContract) : St :=
  match getMiningPlan acc c.planId with
  | some plan => generateDailyEarnings fail now acc c.userId plan c.id
  | none => acc

/-- generateEarningsForAllContracts (routes.ts:843-861): one accrual tick;
fetches the active contracts once and credits each in order. -/
def generateEarningsForAllContracts (fail : Nat → Bool) (now : Int) (s : St) : St :=
  (getActiveMiningContracts s now).foldl (tickStep fail now) s

/-- The failure oracle of a run in which no ledger write throws. -/
def noFail : Nat → Bool := fun _ => false

/-- Request body of POST /api/withdrawals as constrained by
createWithdrawalSchema (schema.ts:231-235). -/
structure WBody where
  currency : String
  amount : Rat
  walletAddress : String
deriving DecidableEq, Repr

/-- Responses of the POST /api/withdrawals handler. -/
inductive WResp where
  | ok (w : Withdrawal)
  | invalidData
  | insufficientBalance
deriving DecidableEq, Repr

/-- POST /api/withdrawals handler (routes.ts:157-185): zod-parse the body
(amount positive, walletAddress nonempty), compare the requested amount
against totalBtc from the Balance Aggregator, reject with the
insufficient-balance error when it exceeds it, otherwise insert the
Withdrawal (whose status defaults to pending per withdrawalSchema). -/
def newWithdrawal (s : St) (uid : String) (b : WBody) : Withdrawal :=
  { id := s.withdrawals.length, userId := uid, currency := b.currency,
    amount := b.amount, walletAddress := b.walletAddress,
    status := WStatus.pending, transactionHash := none,
    networkFee := none, processedAt := none }

def postWithdrawal (s : St) (uid : String) (b : WBody) : St × WResp :=
  if 0 < b.amount ∧ b.walletAddress ≠ "" then
    let totals := getUserTotalEarnings s uid
    if b.amount > totals.1 then (s, WResp.insufficientBalance)
    else
      let w : Withdrawal := newWithdrawal s uid b
      ({ s with withdrawals := s.withdrawals ++ [w] }, WResp.ok w)
  else (s, WResp.invalidData)

/-- POST /api/admin/withdrawals/:id/process handler (routes.ts:343-364):
storage.updateWithdrawal sets status completed, records the transaction
hash, networkFee || 0 and processedAt on the matching document; a missing
id updates nothing. -/
def completeWithdrawal (hash : Option String) (fee : Option Rat) (now : Int)
    (w : Withdrawal) : Withdrawal :=
  { w with status := WStatus.completed, transactionHash := hash,
           networkFee := some (fee.getD 0), processedAt := some now }

def processWithdrawal (s : St) (wid : Nat) (hash : Option String)
    (fee : Option Rat) (now : Int) : St :=
  { s with withdrawals := s.withdrawals.map (fun w =>
      if w.id = wid then completeWithdrawal hash fee now w else w) }

/-- Request body of POST /api/transactions.  createTransactionSchema
(schema.ts:223-229) accepts planId, currency, cryptoAmount, walletAddress
and an optional transactionHash; it has no amount field, so a client-sent
amount (carried here as an extra field) is dropped by the parse and never
read by the handler. -/
structure TxBody where
  planId : Nat
  currency : String
  cryptoAmount : Rat
  walletAddress : String
  transactionHash : Option String
  amount : Option Rat
deriving DecidableEq, Repr

/-- Responses of the POST /api/transactions handler. -/
inductive TResp where
  | ok (t : Transaction)
  | invalidData
  | notFound
deriving DecidableEq, Repr

/-- POST /api/transactions handler (routes.ts:65-91): zod-parse the body,
look up the referenced plan (404 when absent), and insert the Transaction
with amount := plan.price. -/
def newTransaction (s : St) (uid : String) (b : TxBody) (plan : MiningPlan) : Transaction :=
  { id := s.transactions.length, userId := uid, planId := b.planId,
    amount := plan.price, currency := b.currency,
    cryptoAmount := b.cryptoAmount, walletAddress := b.walletAddress,
    transactionHash := b.transactionHash, status := TStatus.pending }

def postTransaction (s : St) (uid : String) (b : TxBody) : St × TResp :=
  if 0 < b.cryptoAmount ∧ b.walletAddress ≠ "" then
    match getMiningPlan s b.planId with
    | none => (s, TResp.notFound)
    | some plan =>
      let t : Transaction := newTransaction s uid b plan
      ({ s with transactions := s.transactions ++ [t] }, TResp.ok t)
  else (s, TResp.invalidData)

/-- JS setMonth calendar arithmetic of routes.ts:281-283 abstracted as
30-day months; no claim depends on the value, only on the shape of the
state change. -/
def monthsAfter (t : Int) (months : Nat) : Int := t + months * 2592000

/-- The MiningContract created at deposit approval (routes.ts:281-293). -/
def approvedContract (s : St) (tx : Transaction) (plan : MiningPlan)
    (now : Int) : MiningContract :=
  { id := s.contracts.length, userId := tx.userId, planId := tx.planId,
    transactionId := tx.id, startDate := now,
    endDate := monthsAfter now plan.contractPeriod,
    isActive := true, totalEarnings := 0 }

/-- POST /api/admin/transactions/:id/approve handler (routes.ts:264-305):
mark the transaction approved, and when its plan exists create an active
MiningContract and immediately run generateDailyEarnings once for it. -/
def approveTransaction (s : St) (tid : Nat) (now : Int) : St :=
  match s.transactions.find? (fun t => decide (t.id = tid)) with
  | none => s
  | some tx =>
    let s1 := { s with transactions := s.transactions.map (fun t =>
        if t.id = tid then { t with status := TStatus.approved } else t) }
    match getMiningPlan s1 tx.planId with
    | none => s1
    | some plan =>
      let c : MiningContract := approvedContract s1 tx plan now
      let s2 := { s1 with contracts := s1.contracts ++ [c] }
      generateDailyEarnings noFail now s2 tx.userId plan c.id

/-- The operations of the system that touch the accrual / balance /
withdrawal state: one accrual tick, the two withdrawal endpoints, and the
two deposit-transaction endpoints. -/
inductive Op where
  | tick (now : Int) (fail : Nat → Bool)
  | createWithdrawal (uid : String) (b : WBody)
  | process (wid : Nat) (hash : Option String) (fee : Option Rat) (now : Int)
  | createTransaction (uid : String) (b : TxBody)
  | approve (tid : Nat) (now : Int)

/-- Interpretation of one operation on the database state. -/
def applyOp (s : St) (op : Op) : St :=
  match op with
  | Op.tick now fail => generateEarningsForAllContracts fail now s
  | Op.createWithdrawal uid b => (postWithdrawal s uid b).1
  | Op.process wid hash fee now => processWithdrawal s wid hash fee now
  | Op.createTransaction uid b => (postTransaction s uid b).1
  | Op.approve tid now => approveTransaction s tid now

/-- A run of the system: operations applied in order. -/
def applyOps (s : St) (ops : List Op) : St := ops.foldl applyOp s

/-- Following the spec's words (sections 3 and 8): Balance(user) is the sum
of the user's ledger amounts minus the sum of the user's completed
withdrawals.  Written from the spec, to be compared with
getUserTotalEarnings, which is written from the source. -/
def specBalance (s : St) (uid : String) : Rat :=
  ((s.earnings.filter (fun e => decide (e.userId = uid))).map (fun e => e.amount)).sum -
  ((s.withdrawals.filter (fun w =>
      decide (w.userId = uid) && decide (w.status = WStatus.completed))).map
    (fun w => w.amount)).sum

/-- Following the spec's words (section 4.3): the requested amount converted
into the balance's BTC denomination using the price store, so that the
admission comparison can be made in a common unit; none when a needed rate
is missing or the BTC rate is zero. -/
def amountInBtc (s : St) (b : WBody) : Option Rat :=
  match getCryptoPrice s b.currency, getCryptoPrice s "BTC" with
  | some pc, some pb =>
      if pb.price = 0 then none else some (b.amount * pc.price / pb.price)
  | _, _ => none

/-! ## Frame lemmas -/

/-- POST /api/withdrawals only ever appends to the withdrawals collection
(each appended document pending, with the collection-length id); every
other collection is untouched. -/
theorem postWithdrawal_frame (s : St) (uid : String) (b : WBody) :
    ∃ l, (postWithdrawal s uid b).1 = { s with withdrawals := s.withdrawals ++ l } ∧
      ∀ w ∈ l, w.status = WStatus.pending ∧ w.id = s.withdrawals.length := by
  by_cases h1 : 0 < b.amount ∧ b.walletAddress ≠ ""
  · by_cases h2 : b.amount > (getUserTotalEarnings s uid).1
    · exact ⟨[], (by simp [postWithdrawal, h1.1, h1.2, h2]), (by simp)⟩
    · refine ⟨[newWithdrawal s uid b],
        (by simp [postWithdrawal, h1.1, h1.2, h2]), ?_⟩
      intro w hw
      simp only [List.mem_singleton] at hw
      subst hw
      exact ⟨rfl, rfl⟩
  · exact ⟨[], (by simp [postWithdrawal, h1]), (by simp)⟩

/-- POST /api/transactions only ever appends to the transactions
collection; every other collection is untouched. -/
theorem postTransaction_frame (s : St) (uid : String) (b : TxBody) :
    ∃ l, (postTransaction s uid b).1 = { s with transactions := s.transactions ++ l } := by
  by_cases h1 : 0 < b.cryptoAmount ∧ b.walletAddress ≠ ""
  · cases hp : getMiningPlan s b.planId with
    | none => exact ⟨[], by simp [postTransaction, h1.1, h1.2, hp]⟩
    | some plan =>
      exact ⟨[newTransaction s uid b plan],
        (by simp [postTransaction, h1.1, h1.2, hp])⟩
  · exact ⟨[], by simp [postTransaction, h1]⟩

/-! ## C2: withdrawal admission -/

/-- C2: a withdrawal request whose amount exceeds the user's current balance
is rejected with the insufficient-balance error and creates no Withdrawal
record (the state is returned unchanged); a schema-valid request whose
amount is at most the balance is admitted and the created Withdrawal has
status pending. -/
theorem withdrawal_admission (s : St) (uid : String) (b : WBody)
    (hv : 0 < b.amount ∧ b.walletAddress ≠ "") :
    (b.amount > (getUserTotalEarnings s uid).1 →
      postWithdrawal s uid b = (s, WResp.insufficientBalance)) ∧
    (b.amount ≤ (getUserTotalEarnings s uid).1 →
      ∃ w, postWithdrawal s uid b =
          ({ s with withdrawals := s.withdrawals ++ [w] }, WResp.ok w) ∧
        w.status = WStatus.pending ∧ w.amount = b.amount ∧ w.userId = uid) := by
  constructor
  · intro h
    simp [postWithdrawal, hv.1, hv.2, h]
  · intro h
    refine ⟨newWithdrawal s uid b, ?_, rfl, rfl, rfl⟩
    simp [postWithdrawal, hv.1, hv.2, not_lt.mpr h]

def stC2 : St :=
  { plans := [], contracts := [],
    earnings := [{ contractId := 0, userId := "u2", date := 0, amount := 5, usdValue := 10 }],
    withdrawals := [], transactions := [], prices := [] }

def bC2 : WBody := { currency := "BTC", amount := 1, walletAddress := "addr1" }

/-- Witness for C2: at a concrete state with balance 5, a request of 1 is
admitted as pending. -/
theorem withdrawal_admission_witness :
    ∃ w, postWithdrawal stC2 "u2" bC2 =
        ({ stC2 with withdrawals := stC2.withdrawals ++ [w] }, WResp.ok w) ∧
      w.status = WStatus.pending ∧ w.amount = bC2.amount ∧ w.userId = "u2" := by
  have h := withdrawal_admission stC2 "u2" bC2
    ⟨by norm_num [bC2], by simp only [bC2]; decide⟩
  refine h.2 ?_
  simp [getUserTotalEarnings, stC2, bC2]

/-! ## C4: the accrual is not idempotent -/

/-- C4: invoking the accrual for the same contract twice at the same instant
unconditionally inserts a second ledger entry: the ledger grows by exactly
two rows, both dated at that instant and charged to that contract. -/
theorem accrual_not_idempotent :
    ∀ (s : St) (now : Int) (uid : String) (plan : MiningPlan) (cid : Nat),
      (generateDailyEarnings noFail now
          (generateDailyEarnings noFail now s uid plan cid) uid plan cid).earnings
        = s.earnings ++ [tickEntry s now uid plan cid,
            tickEntry (generateDailyEarnings noFail now s uid plan cid) now uid plan cid] ∧
      (generateDailyEarnings noFail now
          (generateDailyEarnings noFail now s uid plan cid) uid plan cid).earnings.length
        = s.earnings.length + 2 ∧
      (tickEntry s now uid plan cid).date = now ∧
      (tickEntry (generateDailyEarnings noFail now s uid plan cid) now uid plan cid).date = now ∧
      (tickEntry s now uid plan cid).contractId = cid ∧
      (tickEntry (generateDailyEarnings noFail now s uid plan cid) now uid plan cid).contractId = cid := by
  intro s now uid plan cid
  refine ⟨?_, ?_, rfl, rfl, rfl, rfl⟩ <;> simp [generateDailyEarnings, noFail, tickEntry]

/-! ## C10: transaction amount comes from the plan -/

/-- C10: for a schema-valid create-transaction request, a missing plan gives
a 404 and no Transaction record; otherwise the stored transaction's amount
equals the plan's price; and the result never depends on an amount field
supplied in the request body (the schema has no such field). -/
theorem transaction_amount_from_plan (s : St) (uid : String) (b : TxBody)
    (hv : 0 < b.cryptoAmount ∧ b.walletAddress ≠ "") :
    (getMiningPlan s b.planId = none → postTransaction s uid b = (s, TResp.notFound)) ∧
    (∀ plan, getMiningPlan s b.planId = some plan →
      ∃ t, postTransaction s uid b =
          ({ s with transactions := s.transactions ++ [t] }, TResp.ok t) ∧
        t.amount = plan.price ∧ t.userId = uid ∧ t.status = TStatus.pending) ∧
    (∀ x, postTransaction s uid { b with amount := x } = postTransaction s uid b) := by
  refine ⟨?_, ?_, fun x => rfl⟩
  · intro h
    simp [postTransaction, hv.1, hv.2, h]
  · intro plan h
    refine ⟨newTransaction s uid b plan, ?_, rfl, rfl, rfl⟩
    simp [postTransaction, hv.1, hv.2, h]

def stC10 : St :=
  { plans := [{ id := 0, price := 50, dailyEarnings := 28/1000000,
                contractPeriod := 1, isActive := true }],
    contracts := [], earnings := [], withdrawals := [], transactions := [], prices := [] }

def bC10 : TxBody :=
  { planId := 0, currency := "BTC", cryptoAmount := 1/1000, walletAddress := "addr10",
    transactionHash := none, amount := some 999 }

/-- Witness for C10: at a concrete state, the stored amount is the plan's
price 50, not the 999 supplied in the body. -/
theorem transaction_amount_from_plan_witness :
    ∃ t, postTransaction stC10 "u10" bC10 =
        ({ stC10 with transactions := stC10.transactions ++ [t] }, TResp.ok t) ∧
      t.amount = 50 ∧ t.userId = "u10" ∧ t.status = TStatus.pending := by
  have h := transaction_amount_from_plan stC10 "u10" bC10
    ⟨by norm_num [bC10], by simp only [bC10]; decide⟩
  have hp : getMiningPlan stC10 bC10.planId =
      some { id := 0, price := 50, dailyEarnings := 28/1000000,
             contractPeriod := 1, isActive := true } := by
    simp [getMiningPlan, stC10, bC10]
  exact h.2.1 _ hp

/-! ## C7: the gate never converts currencies -/

def stC7 : St :=
  { plans := [], contracts := [],
    earnings := [{ contractId := 0, userId := "u7", date := 0, amount := 1/2, usdValue := 50000 }],
    withdrawals := [], transactions := [],
    prices := [{ symbol := "BTC", price := 100000 }, { symbol := "ETH", price := 4000 }] }

def bC7 : WBody := { currency := "ETH", amount := 10, walletAddress := "addr7" }

/-- C7 counterexample: a request for 10 ETH (worth 0.4 BTC, within the 0.5
BTC balance, as amountInBtc computes) is nevertheless rejected with the
insufficient-balance error, because the handler compares the raw number 10
against the BTC-denominated balance 0.5 without any conversion. -/
theorem gate_no_conversion_ctex :
    (postWithdrawal stC7 "u7" bC7).2 = WResp.insufficientBalance ∧
    amountInBtc stC7 bC7 = some (2/5) ∧
    (2:Rat)/5 ≤ (getUserTotalEarnings stC7 "u7").1 := by
  refine ⟨?_, ?_, ?_⟩
  · simp [postWithdrawal, getUserTotalEarnings, stC7, bC7]
    norm_num
  · simp [amountInBtc, getCryptoPrice, stC7, bC7]
    norm_num
  · simp [getUserTotalEarnings, stC7]
    norm_num

/-- C7 amended: the gate performs no currency conversion: for a schema-valid
request it rejects exactly when the raw requested amount exceeds totalBtc,
and its accept/reject decision is independent of the request's currency. -/
theorem gate_compares_raw_amount (s : St) (uid : String) (b : WBody)
    (hv : 0 < b.amount ∧ b.walletAddress ≠ "") :
    ((postWithdrawal s uid b).2 = WResp.insufficientBalance ↔
      (getUserTotalEarnings s uid).1 < b.amount) ∧
    (∀ cur, ((postWithdrawal s uid { b with currency := cur }).2
        = WResp.insufficientBalance ↔
      (postWithdrawal s uid b).2 = WResp.insufficientBalance)) := by
  have key : ∀ cur : String,
      ((postWithdrawal s uid { b with currency := cur }).2
          = WResp.insufficientBalance ↔
        (getUserTotalEarnings s uid).1 < b.amount) := by
    intro cur
    by_cases h : (getUserTotalEarnings s uid).1 < b.amount
    · simp [postWithdrawal, hv.1, hv.2, h]
    · simp [postWithdrawal, hv.1, hv.2, h]
  have hb : ((postWithdrawal s uid b).2 = WResp.insufficientBalance ↔
      (getUserTotalEarnings s uid).1 < b.amount) := by
    by_cases h : (getUserTotalEarnings s uid).1 < b.amount
    · simp [postWithdrawal, hv.1, hv.2, h]
    · simp [postWithdrawal, hv.1, hv.2, h]
  exact ⟨hb, fun cur => (key cur).trans hb.symm⟩

/-- Witness for C7 amended: at the concrete C7 state with currency switched
to BTC, the decision is the same as with ETH, and the rejection matches the
raw comparison 0.5 < 10. -/
theorem gate_compares_raw_amount_witness :
    ((postWithdrawal stC7 "u7" bC7).2 = WResp.insufficientBalance ↔
      (getUserTotalEarnings stC7 "u7").1 < bC7.amount) ∧
    ((postWithdrawal stC7 "u7" { bC7 with currency := "BTC" }).2
        = WResp.insufficientBalance ↔
      (postWithdrawal stC7 "u7" bC7).2 = WResp.insufficientBalance) := by
  have h := gate_compares_raw_amount stC7 "u7" bC7
    ⟨by norm_num [bC7], by simp only [bC7]; decide⟩
  exact ⟨h.1, h.2 "BTC"⟩

/-! ## C1: the aggregator never subtracts withdrawals -/

def stC1 : St :=
  { plans := [], contracts := [],
    earnings := [{ contractId := 0, userId := "u1", date := 0, amount := 1, usdValue := 2 },
                 { contractId := 0, userId := "u1", date := 1, amount := 1, usdValue := 2 }],
    withdrawals := [], transactions := [], prices := [] }

def opsC1 : List Op :=
  [Op.createWithdrawal "u1" { currency := "BTC", amount := 1, walletAddress := "a1" },
   Op.process 0 (some "h1") none 2]

/-- C1 counterexample: the database holds two ledger rows of 1 attributed
to the user (stored MiningEarning documents are plain data; the aggregate
of storage.ts:203-219 matches on the stored userId string).  The user's
withdrawal of 1 is admitted (1 is at most the balance 2) and then completed
by the admin.  The Balance Aggregator still returns 2, while the spec's
formula (ledger minus completed withdrawals) gives 1: the source never
subtracts withdrawals. -/
theorem balance_subtracts_withdrawals_ctex :
    (getUserTotalEarnings (applyOps stC1 opsC1) "u1").1 = 2 ∧
    specBalance (applyOps stC1 opsC1) "u1" = 1 ∧
    (getUserTotalEarnings (applyOps stC1 opsC1) "u1").1
      ≠ specBalance (applyOps stC1 opsC1) "u1" := by
  have hrun : applyOps stC1 opsC1 =
      { plans := [], contracts := [],
        earnings := stC1.earnings,
        withdrawals := [{ id := 0, userId := "u1", currency := "BTC", amount := 1,
                          walletAddress := "a1", status := WStatus.completed,
                          transactionHash := some "h1", networkFee := some 0,
                          processedAt := some 2 }],
        transactions := [], prices := [] } := by
    simp [applyOps, applyOp, opsC1, getUserTotalEarnings,
      postWithdrawal, newWithdrawal, processWithdrawal, completeWithdrawal, stC1]
    norm_num
  rw [hrun]
  simp [getUserTotalEarnings, specBalance, stC1]
  norm_num

/-- C1 amended: the Balance Aggregator returns the plain sum of the user's
ledger-entry amounts; completed withdrawals are never subtracted — neither
withdrawal creation nor admin completion changes the returned balance. -/
theorem balance_is_ledger_sum :
    (∀ s uid, (getUserTotalEarnings s uid).1 =
      ((s.earnings.filter (fun e => decide (e.userId = uid))).map
        (fun e => e.amount)).sum) ∧
    (∀ s wid hash fee now uid,
      getUserTotalEarnings (processWithdrawal s wid hash fee now) uid
        = getUserTotalEarnings s uid) ∧
    (∀ s uid b uid2,
      getUserTotalEarnings (postWithdrawal s uid b).1 uid2
        = getUserTotalEarnings s uid2) := by
  refine ⟨fun s uid => rfl, fun s wid hash fee now uid => rfl,
    fun s uid b uid2 => ?_⟩
  obtain ⟨l, hl, hstat⟩ := postWithdrawal_frame s uid b
  rw [hl]
  rfl

/-! ## C3: per-second increment and the ten-tick scenario -/

def planC3 : MiningPlan :=
  { id := 0, price := 50, dailyEarnings := 28/1000000, contractPeriod := 1,
    isActive := true }

def stC3 : St :=
  { plans := [planC3],
    contracts := [{ id := 0, userId := "u3", planId := 0, transactionId := 0,
                    startDate := 0, endDate := 100, isActive := true,
                    totalEarnings := 0 }],
    earnings := [], withdrawals := [], transactions := [],
    prices := [{ symbol := "BTC", price := 111325 }] }

def ticksC3 : List Op :=
  [Op.tick 0 noFail, Op.tick 1 noFail, Op.tick 2 noFail, Op.tick 3 noFail,
   Op.tick 4 noFail, Op.tick 5 noFail, Op.tick 6 noFail, Op.tick 7 noFail,
   Op.tick 8 noFail, Op.tick 9 noFail]

theorem storedUserIdC3 : storedUserId "u3" = "NaN" := by decide

theorem tickEntryC3 (now : Int) : tickEntry stC3 now "u3" planC3 0 =
    { contractId := 0, userId := "NaN", date := now,
      amount := 28/1000000/86400, usdValue := 28/1000000/86400 * 111325 } := by
  simp [tickEntry, stC3, planC3, getCryptoPrice, priceOrDefault, storedUserIdC3]

theorem runC3 : applyOps stC3 ticksC3 =
    { stC3 with earnings :=
        [tickEntry stC3 0 "u3" planC3 0, tickEntry stC3 1 "u3" planC3 0,
         tickEntry stC3 2 "u3" planC3 0, tickEntry stC3 3 "u3" planC3 0,
         tickEntry stC3 4 "u3" planC3 0, tickEntry stC3 5 "u3" planC3 0,
         tickEntry stC3 6 "u3" planC3 0, tickEntry stC3 7 "u3" planC3 0,
         tickEntry stC3 8 "u3" planC3 0, tickEntry stC3 9 "u3" planC3 0] } := by
  simp [applyOps, applyOp, ticksC3, generateEarningsForAllContracts,
    getActiveMiningContracts, tickStep, getMiningPlan, generateDailyEarnings,
    noFail, stC3, tickEntry, getCryptoPrice, priceOrDefault, planC3]

/-- C3 counterexample: after ten one-second ticks the contract's ledger
does hold ten rows of amount 0.00002800/86400 each, but the user-keyed
Balance Aggregator — the "summed balance" of the claim — returns 0, not
approximately 0.00000000324.  routes.ts:832 stores userId: Number(userId);
Number() of an ObjectId-style id is NaN, so every row is stored with
userId "NaN" and none is attributed to the contract's owner. -/
theorem accrual_balance_not_attributed_ctex :
    storedUserId "u3" = "NaN" ∧
    (applyOps stC3 ticksC3).earnings.length = 10 ∧
    (∀ e ∈ (applyOps stC3 ticksC3).earnings,
      e.amount = 28/1000000/86400 ∧ e.userId = "NaN") ∧
    (getUserTotalEarnings (applyOps stC3 ticksC3) "u3").1 = 0 ∧
    ¬((324:Rat)/10^11 ≤ (getUserTotalEarnings (applyOps stC3 ticksC3) "u3").1) := by
  refine ⟨storedUserIdC3, ?_, ?_, ?_, ?_⟩
  · rw [runC3]; rfl
  · rw [runC3]
    intro e he
    simp only [tickEntryC3] at he
    simp only [List.mem_cons, List.not_mem_nil, or_false] at he
    rcases he with h | h | h | h | h | h | h | h | h | h <;>
      (subst h; exact ⟨rfl, rfl⟩)
  · rw [runC3]
    simp only [tickEntryC3]
    simp [getUserTotalEarnings]
  · rw [runC3]
    simp only [tickEntryC3]
    simp [getUserTotalEarnings]

/-- C3 amended: every accrual run credits the contract with
increment = dailyRate / 86400 and usdValue = increment times the BTC rate
in force; concretely, with dailyEarnings 0.00002800 under a fixed price,
ten one-second ticks leave exactly ten ledger rows on the contract, each of
amount 0.00002800/86400 (in [0.000000000324, 0.000000000325)), whose
amounts sum to ten times that (in [0.00000000324, 0.00000000325)); the
user-keyed Balance Aggregator, however, returns 0 for the owner, because
the rows are stored with userId "NaN" by the Number() coercion of
routes.ts:832, not the spec's expected 0.00000000324. -/
theorem accrual_per_second_increment :
    (∀ (s : St) (now : Int) (uid : String) (plan : MiningPlan) (cid : Nat),
      generateDailyEarnings noFail now s uid plan cid
        = { s with earnings := s.earnings ++ [tickEntry s now uid plan cid] } ∧
      (tickEntry s now uid plan cid).amount = plan.dailyEarnings / 86400 ∧
      (tickEntry s now uid plan cid).usdValue
        = plan.dailyEarnings / 86400
            * priceOrDefault ((getCryptoPrice s "BTC").map (fun p => p.price))) ∧
    (applyOps stC3 ticksC3).earnings.length = 10 ∧
    (∀ e ∈ (applyOps stC3 ticksC3).earnings,
      e.contractId = 0 ∧ e.amount = 28/1000000/86400 ∧
      (324:Rat)/10^12 ≤ e.amount ∧ e.amount < 325/10^12 ∧
      e.usdValue = 28/1000000/86400 * 111325) ∧
    (((applyOps stC3 ticksC3).earnings.filter
        (fun e => decide (e.contractId = 0))).map (fun e => e.amount)).sum
      = 10 * (28/1000000/86400) ∧
    (324:Rat)/10^11 ≤ (((applyOps stC3 ticksC3).earnings.filter
        (fun e => decide (e.contractId = 0))).map (fun e => e.amount)).sum ∧
    (((applyOps stC3 ticksC3).earnings.filter
        (fun e => decide (e.contractId = 0))).map (fun e => e.amount)).sum
      < 325/10^11 ∧
    (getUserTotalEarnings (applyOps stC3 ticksC3) "u3").1 = 0 := by
  have hgen : ∀ (s : St) (now : Int) (uid : String) (plan : MiningPlan) (cid : Nat),
      generateDailyEarnings noFail now s uid plan cid
        = { s with earnings := s.earnings ++ [tickEntry s now uid plan cid] } ∧
      (tickEntry s now uid plan cid).amount = plan.dailyEarnings / 86400 ∧
      (tickEntry s now uid plan cid).usdValue
        = plan.dailyEarnings / 86400
            * priceOrDefault ((getCryptoPrice s "BTC").map (fun p => p.price)) := by
    intro s now uid plan cid
    exact ⟨by simp [generateDailyEarnings, noFail], rfl, rfl⟩
  refine ⟨hgen, ?_, ?_, ?_, ?_, ?_, ?_⟩
  · rw [runC3]; rfl
  · rw [runC3]
    intro e he
    simp only [tickEntryC3] at he
    simp only [List.mem_cons, List.not_mem_nil, or_false] at he
    rcases he with h | h | h | h | h | h | h | h | h | h <;>
      (subst h; refine ⟨rfl, rfl, by norm_num, by norm_num, rfl⟩)
  · rw [runC3]
    simp only [tickEntryC3]
    simp
    norm_num
  · rw [runC3]
    simp only [tickEntryC3]
    simp
    norm_num
  · rw [runC3]
    simp only [tickEntryC3]
    simp
    norm_num
  · rw [runC3]
    simp only [tickEntryC3]
    simp [getUserTotalEarnings]

/-! ## Accrual loop lemmas -/

theorem getMiningPlan_congr (s1 s2 : St) (h : s1.plans = s2.plans) (pid : Nat) :
    getMiningPlan s1 pid = getMiningPlan s2 pid := by
  unfold getMiningPlan; rw [h]

theorem getCryptoPrice_congr (s1 s2 : St) (h : s1.prices = s2.prices) (sym : String) :
    getCryptoPrice s1 sym = getCryptoPrice s2 sym := by
  unfold getCryptoPrice; rw [h]

/-- Folding the accrual loop body over any list of contracts only appends
ledger rows; each appended row is dated at the tick, carries some catalog
plan's dailyEarnings / 86400 together with its USD conversion at the tick's
BTC rate, and is charged to one of the folded contracts. -/
theorem tickStep_fold (fail : Nat → Bool) (now : Int) (s : St)
    (L : List MiningContract) :
    ∀ acc : St, acc.plans = s.plans → acc.prices = s.prices →
    ∃ l, L.foldl (tickStep fail now) acc = { acc with earnings := acc.earnings ++ l } ∧
      ∀ e ∈ l, e.date = now ∧
        (∃ p ∈ s.plans, e.amount = p.dailyEarnings / 86400 ∧
          e.usdValue = e.amount *
            priceOrDefault ((getCryptoPrice s "BTC").map (fun q => q.price))) ∧
        ∃ c ∈ L, e.contractId = c.id ∧ e.userId = storedUserId c.userId := by
  induction L with
  | nil =>
    intro acc hpl hpr
    exact ⟨[], by simp, by simp⟩
  | cons c L ih =>
    intro acc hpl hpr
    rw [List.foldl_cons]
    have hstep : ∃ l1, tickStep fail now acc c = { acc with earnings := acc.earnings ++ l1 } ∧
        ∀ e ∈ l1, e.date = now ∧
          (∃ p ∈ s.plans, e.amount = p.dailyEarnings / 86400 ∧
            e.usdValue = e.amount *
              priceOrDefault ((getCryptoPrice s "BTC").map (fun q => q.price))) ∧
          e.contractId = c.id ∧ e.userId = storedUserId c.userId := by
      unfold tickStep
      cases hp : getMiningPlan acc c.planId with
      | none => exact ⟨[], by simp, by simp⟩
      | some plan =>
        by_cases hf : fail c.id = true
        · exact ⟨[], by simp [generateDailyEarnings, hf], by simp⟩
        · refine ⟨[tickEntry acc now c.userId plan c.id], ?_, ?_⟩
          · simp [generateDailyEarnings, hf]
          · intro e he
            simp only [List.mem_singleton] at he
            subst he
            refine ⟨rfl, ⟨plan, ?_, rfl, ?_⟩, rfl, rfl⟩
            · have := List.mem_of_find?_eq_some hp
              rwa [hpl] at this
            · have hcp : getCryptoPrice acc "BTC" = getCryptoPrice s "BTC" :=
                getCryptoPrice_congr acc s hpr "BTC"
              simp [tickEntry, hcp]
    obtain ⟨l1, h1, hprop1⟩ := hstep
    have hpl2 : ({ acc with earnings := acc.earnings ++ l1 } : St).plans = s.plans := hpl
    have hpr2 : ({ acc with earnings := acc.earnings ++ l1 } : St).prices = s.prices := hpr
    obtain ⟨l, hl, hprop⟩ := ih { acc with earnings := acc.earnings ++ l1 } hpl2 hpr2
    refine ⟨l1 ++ l, ?_, ?_⟩
    · rw [h1, hl]
      simp [List.append_assoc]
    · intro e he
      rcases List.mem_append.mp he with h | h
      · obtain ⟨hd, hpe, hcid, huid⟩ := hprop1 e h
        exact ⟨hd, hpe, c, List.mem_cons_self c L, hcid, huid⟩
      · obtain ⟨hd, hpe, c2, hc2, hrest⟩ := hprop e h
        exact ⟨hd, hpe, c2, List.mem_cons_of_mem c hc2, hrest⟩

/-- One accrual tick only appends to the ledger; every appended row is
dated at the tick, carries some plan's per-second rate (with the fallback
USD conversion), and belongs to a contract of the tick's active set. -/
theorem tick_frame (fail : Nat → Bool) (now : Int) (s : St) :
    ∃ l, generateEarningsForAllContracts fail now s
        = { s with earnings := s.earnings ++ l } ∧
      ∀ e ∈ l, e.date = now ∧
        (∃ p ∈ s.plans, e.amount = p.dailyEarnings / 86400 ∧
          e.usdValue = e.amount *
            priceOrDefault ((getCryptoPrice s "BTC").map (fun q => q.price))) ∧
        ∃ c ∈ getActiveMiningContracts s now,
          e.contractId = c.id ∧ e.userId = storedUserId c.userId := by
  exact tickStep_fold fail now s (getActiveMiningContracts s now) s rfl rfl

/-- Number of ledger rows charged to a given contract id. -/
def countC (es : List MiningEarning) (cid : Nat) : Nat :=
  (es.filter (fun e => decide (e.contractId = cid))).length

/-- The number of rows one loop iteration adds for contract id cid:
one when the contract's plan resolves, its write does not fail, and it is
the contract in question; zero otherwise. -/
def tickContribution (fail : Nat → Bool) (s : St) (cid : Nat)
    (c : MiningContract) : Nat :=
  if (getMiningPlan s c.planId).isSome ∧ fail c.id = false ∧ c.id = cid then 1 else 0

theorem countC_append (es l : List MiningEarning) (cid : Nat) :
    countC (es ++ l) cid = countC es cid + countC l cid := by
  simp [countC, List.filter_append]

theorem tickStep_fold_count (fail : Nat → Bool) (now : Int) (s : St) (cid : Nat)
    (L : List MiningContract) :
    ∀ acc : St, acc.plans = s.plans →
    countC ((L.foldl (tickStep fail now) acc).earnings) cid
      = countC acc.earnings cid + (L.map (tickContribution fail s cid)).sum := by
  induction L with
  | nil => intro acc hpl; simp
  | cons c L ih =>
    intro acc hpl
    rw [List.foldl_cons]
    have hstepPlans : (tickStep fail now acc c).plans = s.plans := by
      unfold tickStep
      cases hp : getMiningPlan acc c.planId with
      | none => exact hpl
      | some plan =>
        unfold generateDailyEarnings
        by_cases hf : fail c.id = true
        · simp [hf]; exact hpl
        · simp [hf]; exact hpl
    rw [ih _ hstepPlans]
    have hstepCount : countC (tickStep fail now acc c).earnings cid
        = countC acc.earnings cid + tickContribution fail s cid c := by
      have hmp : getMiningPlan acc c.planId = getMiningPlan s c.planId :=
        getMiningPlan_congr acc s hpl c.planId
      unfold tickStep
      cases hp : getMiningPlan acc c.planId with
      | none =>
        have : getMiningPlan s c.planId = none := hmp ▸ hp
        simp [tickContribution, this]
      | some plan =>
        have hsome : (getMiningPlan s c.planId).isSome := by
          rw [← hmp, hp]; rfl
        by_cases hf : fail c.id = true
        · simp [generateDailyEarnings, hf, tickContribution, hsome]
        · have hffalse : fail c.id = false := by
            cases hq : fail c.id
            · rfl
            · exact absurd hq hf
          have hE : (generateDailyEarnings fail now acc c.userId plan c.id).earnings
              = acc.earnings ++ [tickEntry acc now c.userId plan c.id] := by
            simp [generateDailyEarnings, hffalse]
          rw [hE, countC_append]
          by_cases hcid : c.id = cid
          · have hf2 : fail cid = false := hcid ▸ hffalse
            simp [countC, tickEntry, hcid, tickContribution, hsome, hffalse, hf2]
          · simp [countC, tickEntry, hcid, tickContribution, hsome, hffalse]
    rw [hstepCount]
    simp [List.sum_cons]
    ring

/-- Per-tick row count for a contract id: old count plus the per-contract
contributions of the active set. -/
theorem tick_count (fail : Nat → Bool) (now : Int) (s : St) (cid : Nat) :
    countC (generateEarningsForAllContracts fail now s).earnings cid
      = countC s.earnings cid +
        ((getActiveMiningContracts s now).map (tickContribution fail s cid)).sum := by
  exact tickStep_fold_count fail now s cid (getActiveMiningContracts s now) s rfl

theorem sum_map_eq_one_of_unique {α : Type} [DecidableEq α] (g : α → Nat)
    (A : List α) (c : α) (hc : c ∈ A) (hnd : A.Nodup) (hgc : g c = 1)
    (hother : ∀ x ∈ A, x ≠ c → g x = 0) :
    (A.map g).sum = 1 := by
  induction A with
  | nil => cases hc
  | cons a A ih =>
    by_cases hac : a = c
    · have hga : g a = 1 := by rw [hac]; exact hgc
      have hnotin : c ∉ A := by rw [← hac]; exact (List.nodup_cons.mp hnd).1
      have hsum0 : (A.map g).sum = 0 := by
        apply List.sum_eq_zero
        intro x hx
        obtain ⟨y, hy, hxy⟩ := List.mem_map.mp hx
        rw [← hxy]
        exact hother y (List.mem_cons_of_mem a hy) (fun hEq => hnotin (hEq ▸ hy))
      simp [hsum0, hga]
    · have hcA : c ∈ A := by
        rcases List.mem_cons.mp hc with h | h
        · exact absurd h.symm hac
        · exact h
      have ha0 : g a = 0 := hother a (List.mem_cons_self a A) hac
      have hrec := ih hcA (List.nodup_cons.mp hnd).2
        (fun x hx hxc => hother x (List.mem_cons_of_mem a hx) hxc)
      simp [ha0, hrec]

/-! ## C5: deactivation stops accrual -/

/-- C5: a contract whose isActive flag is false or whose endDate has passed
is not selected by the active-set query (isActive = true AND endDate >=
now), and the tick creates no ledger rows for its contract id. -/
theorem deactivation_stops_accrual (s : St) (now : Int) (fail : Nat → Bool)
    (c : MiningContract)
    (hdead : c.isActive = false ∨ c.endDate < now)
    (huniq : ∀ x ∈ s.contracts, x.id = c.id → x = c) :
    c ∉ getActiveMiningContracts s now ∧
    (generateEarningsForAllContracts fail now s).earnings.filter
        (fun e => decide (e.contractId = c.id))
      = s.earnings.filter (fun e => decide (e.contractId = c.id)) := by
  have hnotmem : c ∉ getActiveMiningContracts s now := by
    intro hmem
    have hp := (List.mem_filter.mp hmem).2
    rcases hdead with h | h
    · simp [h] at hp
    · simp [not_le.mpr h] at hp
  refine ⟨hnotmem, ?_⟩
  obtain ⟨l, hl, hprop⟩ := tick_frame fail now s
  rw [hl]
  have hlnil : l.filter (fun e => decide (e.contractId = c.id)) = [] := by
    apply List.filter_eq_nil_iff.mpr
    intro e he
    obtain ⟨_, _, c2, hc2, hcid, _⟩ := hprop e he
    simp only [decide_eq_true_eq]
    intro hEq
    have hc2id : c2.id = c.id := by rw [← hcid, hEq]
    have hc2c : c2 = c := huniq c2 (List.mem_filter.mp hc2).1 hc2id
    exact hnotmem (hc2c ▸ hc2)
  rw [List.filter_append, hlnil, List.append_nil]

def cC5 : MiningContract :=
  { id := 0, userId := "u5", planId := 0, transactionId := 0, startDate := 0,
    endDate := 100, isActive := false, totalEarnings := 0 }

def stC5 : St :=
  { plans := [{ id := 0, price := 10, dailyEarnings := 1, contractPeriod := 1,
                isActive := true }],
    contracts := [cC5],
    earnings := [{ contractId := 0, userId := "u5", date := 0, amount := 1, usdValue := 1 }],
    withdrawals := [], transactions := [], prices := [] }

/-- Witness for C5: a concrete deactivated contract is skipped by the tick
and gains no ledger rows. -/
theorem deactivation_stops_accrual_witness :
    cC5 ∉ getActiveMiningContracts stC5 5 ∧
    (generateEarningsForAllContracts noFail 5 stC5).earnings.filter
        (fun e => decide (e.contractId = cC5.id))
      = stC5.earnings.filter (fun e => decide (e.contractId = cC5.id)) := by
  refine deactivation_stops_accrual stC5 5 noFail cC5 (Or.inl rfl) ?_
  intro x hx h
  have : x = cC5 := by
    have hmem : x ∈ [cC5] := hx
    simpa using hmem
  exact this

/-! ## C8: per-contract failure isolation and price fallback -/

/-- C8: within one tick a failing ledger write for one contract does not
prevent the others from being processed: every active contract whose plan
resolves and whose own write does not fail gains exactly one ledger row,
whatever other contracts' writes do; and when the BTC price document is
absent the tick does not abort: it still only appends rows, and each new
row is priced at the hardcoded fallback rate 111325. -/
theorem tick_failure_isolation (s : St) (now : Int) (fail : Nat → Bool)
    (c : MiningContract) (plan : MiningPlan)
    (hc : c ∈ getActiveMiningContracts s now)
    (hplan : getMiningPlan s c.planId = some plan)
    (hok : fail c.id = false)
    (hnd : (s.contracts.map (fun x => x.id)).Nodup) :
    countC (generateEarningsForAllContracts fail now s).earnings c.id
      = countC s.earnings c.id + 1 ∧
    (getCryptoPrice s "BTC" = none →
      ∃ l, (generateEarningsForAllContracts fail now s).earnings
          = s.earnings ++ l ∧
        ∀ e ∈ l, e.usdValue = e.amount * 111325) := by
  constructor
  · rw [tick_count]
    congr 1
    have hsubc : ∀ x ∈ getActiveMiningContracts s now, x ∈ s.contracts :=
      fun x hx => (List.mem_filter.mp hx).1
    have hndA : (getActiveMiningContracts s now).Nodup :=
      List.Nodup.filter _ (List.Nodup.of_map _ hnd)
    apply sum_map_eq_one_of_unique _ _ c hc hndA
    · simp [tickContribution, hplan, hok]
    · intro x hx hxc
      have hxid : x.id ≠ c.id := by
        intro hEq
        exact hxc (List.inj_on_of_nodup_map hnd (hsubc x hx) (hsubc c hc) hEq)
      simp [tickContribution, hxid]
  · intro hnone
    obtain ⟨l, hl, hprop⟩ := tick_frame fail now s
    refine ⟨l, by rw [hl], ?_⟩
    intro e he
    obtain ⟨_, ⟨p, _, _, husd⟩, _⟩ := hprop e he
    rw [husd]
    simp [hnone, priceOrDefault]

def stC8 : St :=
  { plans := [{ id := 0, price := 10, dailyEarnings := 1, contractPeriod := 1,
                isActive := true }],
    contracts := [{ id := 0, userId := "ua", planId := 0, transactionId := 0,
                    startDate := 0, endDate := 100, isActive := true,
                    totalEarnings := 0 },
                  { id := 1, userId := "ub", planId := 0, transactionId := 1,
                    startDate := 0, endDate := 100, isActive := true,
                    totalEarnings := 0 }],
    earnings := [], withdrawals := [], transactions := [], prices := [] }

def cC8 : MiningContract :=
  { id := 1, userId := "ub", planId := 0, transactionId := 1, startDate := 0,
    endDate := 100, isActive := true, totalEarnings := 0 }

def planC8 : MiningPlan :=
  { id := 0, price := 10, dailyEarnings := 1, contractPeriod := 1, isActive := true }

def failC8 : Nat → Bool := fun n => n == 0

/-- Witness for C8: with contract 0's write failing and no BTC price
document, contract 1 still gains exactly one row, priced at the fallback
rate. -/
theorem tick_failure_isolation_witness :
    countC (generateEarningsForAllContracts failC8 3 stC8).earnings cC8.id
      = countC stC8.earnings cC8.id + 1 ∧
    (getCryptoPrice stC8 "BTC" = none →
      ∃ l, (generateEarningsForAllContracts failC8 3 stC8).earnings
          = stC8.earnings ++ l ∧
        ∀ e ∈ l, e.usdValue = e.amount * 111325) := by
  refine tick_failure_isolation stC8 3 failC8 cC8 planC8 ?_ ?_ ?_ ?_
  · simp [getActiveMiningContracts, stC8, cC8]
  · simp [getMiningPlan, stC8, cC8, planC8]
  · rfl
  · simp [stC8]

/-! ## C6: terminal withdrawal states -/

/-- POST /api/admin/transactions/:id/approve only rewrites transaction
statuses, appends at most one contract and at most one accrual row (the
immediate generateDailyEarnings call of routes.ts:296); withdrawals and the
plan catalog are untouched. -/
theorem approveTransaction_frame (s : St) (tid : Nat) (now : Int) :
    ∃ ts cs l, approveTransaction s tid now
        = { s with transactions := ts, contracts := s.contracts ++ cs,
                   earnings := s.earnings ++ l } ∧
      ∀ e ∈ l, e.date = now ∧ ∃ p ∈ s.plans, e.amount = p.dailyEarnings / 86400 := by
  unfold approveTransaction
  cases hf : s.transactions.find? (fun t => decide (t.id = tid)) with
  | none => exact ⟨s.transactions, [], [], (by simp), (by simp)⟩
  | some tx =>
    cases hp : getMiningPlan { s with transactions := s.transactions.map (fun t =>
        if t.id = tid then { t with status := TStatus.approved } else t) } tx.planId with
    | none =>
      refine ⟨s.transactions.map (fun t =>
        if t.id = tid then { t with status := TStatus.approved } else t), [], [],
        ?_, (by simp)⟩
      simp [hp]
    | some plan =>
      refine ⟨s.transactions.map (fun t =>
          if t.id = tid then { t with status := TStatus.approved } else t),
        [approvedContract s tx plan now],
        [tickEntry s now tx.userId plan (approvedContract s tx plan now).id],
        ?_, ?_⟩
      · simp [hp, generateDailyEarnings, noFail, approvedContract, tickEntry,
          getCryptoPrice]
      · intro e he
        simp only [List.mem_singleton] at he
        subst he
        refine ⟨rfl, plan, ?_, rfl⟩
        exact List.mem_of_find?_eq_some hp

/-- The effect of each operation on the withdrawals collection: it is left
unchanged, a fresh pending document is appended, or the operation is the
admin process operation, which completes the matching document in place. -/
theorem applyOp_withdrawals (s : St) (op : Op) :
    (applyOp s op).withdrawals = s.withdrawals ∨
    (∃ w, (applyOp s op).withdrawals = s.withdrawals ++ [w] ∧
      w.status = WStatus.pending ∧ w.id = s.withdrawals.length) ∨
    (∃ wid hash fee now2, op = Op.process wid hash fee now2 ∧
      (applyOp s op).withdrawals = s.withdrawals.map (fun w =>
        if w.id = wid then completeWithdrawal hash fee now2 w else w)) := by
  cases op with
  | tick now fail =>
    obtain ⟨l, hl, _⟩ := tick_frame fail now s
    exact Or.inl (by simp [applyOp, hl])
  | createWithdrawal uid b =>
    by_cases h1 : 0 < b.amount ∧ b.walletAddress ≠ ""
    · by_cases h2 : b.amount > (getUserTotalEarnings s uid).1
      · exact Or.inl (by simp [applyOp, postWithdrawal, h1.1, h1.2, h2])
      · exact Or.inr (Or.inl ⟨newWithdrawal s uid b,
          (by simp [applyOp, postWithdrawal, h1.1, h1.2, h2]), rfl, rfl⟩)
    · exact Or.inl (by simp [applyOp, postWithdrawal, h1])
  | process wid hash fee now2 =>
    exact Or.inr (Or.inr ⟨wid, hash, fee, now2, rfl, rfl⟩)
  | createTransaction uid b =>
    obtain ⟨l, hl⟩ := postTransaction_frame s uid b
    exact Or.inl (by simp [applyOp, hl])
  | approve tid now2 =>
    obtain ⟨ts, cs, l, hl, _⟩ := approveTransaction_frame s tid now2
    exact Or.inl (by simp [applyOp, hl])

/-- Ids of the withdrawals collection are exactly 0..n-1: the database
generates them as the collection length at insertion time. -/
def WIdsOK (s : St) : Prop :=
  s.withdrawals.map (fun w => w.id) = List.range s.withdrawals.length

/-- Every withdrawal is pending or completed: the routes never produce
processing or rejected (no endpoint sets them). -/
def statusOK (s : St) : Prop :=
  ∀ w ∈ s.withdrawals, w.status = WStatus.pending ∨ w.status = WStatus.completed

theorem applyOp_withdrawal_inv (s : St) (op : Op) (wid : Nat)
    (hids : WIdsOK s) (hOK : statusOK s) (hlt : wid < s.withdrawals.length)
    (hall : ∀ w ∈ s.withdrawals, w.id = wid → w.status = WStatus.completed) :
    WIdsOK (applyOp s op) ∧ statusOK (applyOp s op) ∧
    wid < (applyOp s op).withdrawals.length ∧
    ∀ w ∈ (applyOp s op).withdrawals, w.id = wid → w.status = WStatus.completed := by
  rcases applyOp_withdrawals s op with h | ⟨w, h, hpend, hid⟩ |
    ⟨wid2, hash, fee, now2, hop, h⟩
  · refine ⟨?_, ?_, ?_, ?_⟩ <;> simp only [WIdsOK, statusOK, h] <;>
      first
        | exact hids
        | exact hOK
        | exact hlt
        | exact hall
  · refine ⟨?_, ?_, ?_, ?_⟩
    · simp only [WIdsOK, h, List.map_append, List.length_append, List.map_cons,
        List.map_nil, List.length_cons, List.length_nil]
      rw [hids, hid]
      have : s.withdrawals.length + (0 + 1) = s.withdrawals.length + 1 := by omega
      rw [this, List.range_succ]
    · intro x hx
      rw [h] at hx
      rcases List.mem_append.mp hx with hx | hx
      · exact hOK x hx
      · simp only [List.mem_singleton] at hx
        subst hx
        exact Or.inl hpend
    · rw [h, List.length_append]
      omega
    · intro x hx hxid
      rw [h] at hx
      rcases List.mem_append.mp hx with hx | hx
      · exact hall x hx hxid
      · simp only [List.mem_singleton] at hx
        subst hx
        exfalso
        rw [hid] at hxid
        omega
  · have hfid : ∀ x : Withdrawal,
        (if x.id = wid2 then completeWithdrawal hash fee now2 x else x).id = x.id := by
      intro x
      by_cases hc : x.id = wid2 <;> simp [hc, completeWithdrawal]
    refine ⟨?_, ?_, ?_, ?_⟩
    · simp only [WIdsOK, h, List.length_map, List.map_map]
      calc (s.withdrawals.map (fun x =>
              (if x.id = wid2 then completeWithdrawal hash fee now2 x else x).id))
          = s.withdrawals.map (fun x => x.id) := by
            apply List.map_congr_left
            intro a _
            exact hfid a
        _ = List.range s.withdrawals.length := hids
    · intro x hx
      rw [h] at hx
      obtain ⟨y, hy, hxy⟩ := List.mem_map.mp hx
      subst hxy
      by_cases hc : y.id = wid2
      · simp [hc, completeWithdrawal]
      · simp only [hc, if_false]
        exact hOK y hy
    · rw [h, List.length_map]
      exact hlt
    · intro x hx hxid
      rw [h] at hx
      obtain ⟨y, hy, hxy⟩ := List.mem_map.mp hx
      subst hxy
      by_cases hc : y.id = wid2
      · simp [hc, completeWithdrawal]
      · simp only [hc, if_false] at hxid ⊢
        exact hall y hy hxid

theorem applyOps_withdrawal_inv (ops : List Op) (s : St) (wid : Nat)
    (hids : WIdsOK s) (hOK : statusOK s) (hlt : wid < s.withdrawals.length)
    (hall : ∀ w ∈ s.withdrawals, w.id = wid → w.status = WStatus.completed) :
    WIdsOK (applyOps s ops) ∧ statusOK (applyOps s ops) ∧
    wid < (applyOps s ops).withdrawals.length ∧
    ∀ w ∈ (applyOps s ops).withdrawals, w.id = wid → w.status = WStatus.completed := by
  induction ops generalizing s with
  | nil => exact ⟨hids, hOK, hlt, hall⟩
  | cons op ops ih =>
    obtain ⟨h1, h2, h3, h4⟩ := applyOp_withdrawal_inv s op wid hids hOK hlt hall
    exact ih (applyOp s op) h1 h2 h3 h4

/-- C6: withdrawal statuses are mutated only by the admin process
transition (every other operation at most appends fresh pending documents),
and completed is terminal: once a withdrawal is completed, it stays
completed under any further sequence of operations, including repeated
admin process requests on it.  The rejected and processing statuses are
never produced by any operation (statusOK), so their terminality holds
vacuously along every reachable run. -/
theorem withdrawal_terminal_states (s : St) (ops : List Op) (wid : Nat)
    (hids : WIdsOK s) (hOK : statusOK s)
    (hw : ∃ w ∈ s.withdrawals, w.id = wid ∧ w.status = WStatus.completed) :
    statusOK (applyOps s ops) ∧
    (∃ w ∈ (applyOps s ops).withdrawals, w.id = wid ∧ w.status = WStatus.completed) ∧
    (∀ w ∈ (applyOps s ops).withdrawals, w.id = wid → w.status = WStatus.completed) ∧
    (∀ op2, (∀ i h f t, op2 ≠ Op.process i h f t) →
      ∃ l, (applyOp s op2).withdrawals = s.withdrawals ++ l) := by
  obtain ⟨w0, hmem0, hwid0, hcomp0⟩ := hw
  have hlt : wid < s.withdrawals.length := by
    have h1 : w0.id ∈ s.withdrawals.map (fun w => w.id) :=
      List.mem_map_of_mem _ hmem0
    rw [hids, hwid0] at h1
    exact List.mem_range.mp h1
  have hndids : (s.withdrawals.map (fun w => w.id)).Nodup := by
    rw [hids]; exact List.nodup_range _
  have hall : ∀ w ∈ s.withdrawals, w.id = wid → w.status = WStatus.completed := by
    intro w hwmem hwidEq
    have : w = w0 := by
      apply List.inj_on_of_nodup_map hndids hwmem hmem0
      rw [hwidEq, hwid0]
    rw [this]
    exact hcomp0
  obtain ⟨hfids, hfOK, hflt, hfall⟩ := applyOps_withdrawal_inv ops s wid hids hOK hlt hall
  refine ⟨hfOK, ?_, hfall, ?_⟩
  · have hmem : wid ∈ (applyOps s ops).withdrawals.map (fun w => w.id) := by
      rw [hfids]
      exact List.mem_range.mpr hflt
    obtain ⟨w, hwmem, hwid⟩ := List.mem_map.mp hmem
    exact ⟨w, hwmem, hwid, hfall w hwmem hwid⟩
  · intro op2 hne
    rcases applyOp_withdrawals s op2 with h | ⟨w, h, _, _⟩ | ⟨i, ha, f, t, hop, _⟩
    · exact ⟨[], by rw [h, List.append_nil]⟩
    · exact ⟨[w], h⟩
    · exact absurd hop (hne i ha f t)

def wC6 : Withdrawal :=
  { id := 0, userId := "u6", currency := "BTC", amount := 1, walletAddress := "a6",
    status := WStatus.completed, transactionHash := some "h6",
    networkFee := some 0, processedAt := some 1 }

def stC6 : St :=
  { plans := [], contracts := [], earnings := [], withdrawals := [wC6],
    transactions := [], prices := [] }

def opsC6 : List Op := [Op.process 0 (some "h7") (some 2) 9]

/-- Witness for C6: a completed withdrawal run through a repeated admin
process request stays completed. -/
theorem withdrawal_terminal_states_witness :
    statusOK (applyOps stC6 opsC6) ∧
    (∃ w ∈ (applyOps stC6 opsC6).withdrawals,
      w.id = 0 ∧ w.status = WStatus.completed) ∧
    (∀ w ∈ (applyOps stC6 opsC6).withdrawals,
      w.id = 0 → w.status = WStatus.completed) ∧
    (∀ op2, (∀ i h f t, op2 ≠ Op.process i h f t) →
      ∃ l, (applyOp stC6 op2).withdrawals = stC6.withdrawals ++ l) := by
  refine withdrawal_terminal_states stC6 opsC6 0 ?_ ?_ ?_
  · show [(0:Nat)] = List.range 1
    rfl
  · intro w hwmem
    have : w = wC6 := by simpa [stC6] using hwmem
    rw [this]
    exact Or.inr rfl
  · exact ⟨wC6, by simp [stC6], rfl, rfl⟩

/-! ## C9: append-only monotone ledger -/

end CoinMine
